import Mathlib

/-!
Verification of the Wordle information-theory solver
(`Wordle/information_theory.py`).

Words are lists of characters; feedback patterns are lists of naturals
(2 = correct spot, 1 = present elsewhere, 0 = absent).  The Python
letter-count dictionary is modelled as a total function `Char → ℤ`
(Python integers are unbounded and signed); its key set is exactly the
set of letters of the secret word, so the `letter in true_dict.keys()`
test is modelled as membership in the secret word.
-/

namespace Wordle

abbrev Word := List Char

abbrev Pattern := List Nat

/-- The letter-count dictionary built by the first loop of
`get_guess_result`: start empty and bump the count of each letter of
`true_word` in turn.  Absent keys are modelled as count 0. -/
def true_dict (true_word : Word) : Char → ℤ :=
  true_word.foldl (fun d letter => fun c => if c = letter then d c + 1 else d c)
    (fun _ => 0)

/-- `true_dict[letter] -= 1`. -/
def decr (d : Char → ℤ) (letter : Char) : Char → ℤ :=
  fun c => if c = letter then d c - 1 else d c

/-- First loop of `get_guess_result`: walk the guess and the secret in
step; where the letters agree write code 2 and decrement the letter's
count, elsewhere leave the initial 0 from `np.zeros(5)`.  Returns the
marks together with the updated dictionary. -/
def pass1 : Word → Word → (Char → ℤ) → Pattern × (Char → ℤ)
  | s :: ss, g :: gs, d =>
    if g = s then
      let t := pass1 ss gs (decr d g)
      (2 :: t.1, t.2)
    else
      let t := pass1 ss gs d
      (0 :: t.1, t.2)
  | _, _, d => ([], d)

/-- Second loop of `get_guess_result`: a position keeps its 2; otherwise
it becomes 1 (and the letter's count drops by one) exactly when the
letter is a key of the dictionary (`keys` = letters of the secret) with
nonzero count, and 0 otherwise.  Returns the final marks and
dictionary. -/
def pass2 (keys : Word) : Word → Pattern → (Char → ℤ) → Pattern × (Char → ℤ)
  | g :: gs, r :: rs, d =>
    if g ∈ keys ∧ d g ≠ 0 ∧ r ≠ 2 then
      let t := pass2 keys gs rs (decr d g)
      (1 :: t.1, t.2)
    else if r ≠ 2 then
      let t := pass2 keys gs rs d
      (0 :: t.1, t.2)
    else
      let t := pass2 keys gs rs d
      (r :: t.1, t.2)
  | _, _, d => ([], d)

/-- `get_guess_result(true_word, guess)`: the two-pass duplicate-aware
Wordle feedback computation. -/
def get_guess_result (true_word guess : Word) : Pattern :=
  let d := true_dict true_word
  let p1 := pass1 true_word guess d
  (pass2 true_word guess p1.1 p1.2).1

/-- Modelled from the spec (§4.1, step 1): the letter → remaining-count
multiset built from the secret. -/
def spec_multiset (secret : Word) : Char → ℕ :=
  fun c => secret.count c

/-- Decrement of a multiset count (only ever applied at a positive
count). -/
def decrN (d : Char → ℕ) (letter : Char) : Char → ℕ :=
  fun c => if c = letter then d c - 1 else d c

/-- Modelled from the spec (§4.1, step 2): pass 1 marks every exact
match CORRECT (2) and decrements that letter's remaining count, leaving
the other positions unmarked (0) for pass 2. -/
def spec_pass1 : Word → Word → (Char → ℕ) → Pattern × (Char → ℕ)
  | s :: ss, g :: gs, d =>
    if g = s then
      let t := spec_pass1 ss gs (decrN d g)
      (2 :: t.1, t.2)
    else
      let t := spec_pass1 ss gs d
      (0 :: t.1, t.2)
  | _, _, d => ([], d)

/-- Modelled from the spec (§4.1, step 3): pass 2 marks each position
not already CORRECT as PRESENT (1), decrementing the count, exactly when
the guessed letter's remaining count is positive, and otherwise as
ABSENT (0). -/
def spec_pass2 : Word → Pattern → (Char → ℕ) → Pattern
  | g :: gs, r :: rs, d =>
    if r = 2 then 2 :: spec_pass2 gs rs d
    else if 0 < d g then 1 :: spec_pass2 gs rs (decrN d g)
    else 0 :: spec_pass2 gs rs d
  | _, _, _ => []

/-- Modelled from the spec (§4.1): the whole two-pass evaluation, with
pass 1 fully completed before pass 2 starts. -/
def spec_evaluate (secret guess : Word) : Pattern :=
  let d := spec_multiset secret
  let p1 := spec_pass1 secret guess d
  spec_pass2 guess p1.1 p1.2

example :
    get_guess_result "boxed".toList "excel".toList = [0, 1, 0, 2, 0] := by
  decide

example :
    spec_evaluate "boxed".toList "excel".toList = [0, 1, 0, 2, 0] := by
  decide

example :
    get_guess_result "allot".toList "lulls".toList = [1, 0, 2, 0, 0] := by
  decide

lemma true_dict_loop (w : Word) (d : Char → ℤ) (c : Char) :
    w.foldl (fun d letter => fun c => if c = letter then d c + 1 else d c) d c
      = d c + w.count c := by
  induction w generalizing d with
  | nil => simp
  | cons a w ih =>
    rw [List.foldl_cons, ih]
    by_cases h : c = a
    · subst h
      rw [List.count_cons_self]
      push_cast
      simp
      ring
    · rw [List.count_cons_of_ne h]
      simp [h]

lemma true_dict_eq_count (w : Word) (c : Char) :
    true_dict w c = (w.count c : ℤ) := by
  unfold true_dict
  rw [true_dict_loop]
  simp

lemma count_cons_eq (c a : Char) (l : List Char) :
    (a :: l).count c = l.count c + if c = a then 1 else 0 := by
  by_cases h : c = a
  · subst h
    rw [List.count_cons_self]
    simp
  · rw [List.count_cons_of_ne h]
    simp [h]

lemma decr_cast (dN : Char → ℕ) (g : Char) (hg : 1 ≤ dN g) :
    decr (fun c => (dN c : ℤ)) g = fun c => ((decrN dN g c : ℕ) : ℤ) := by
  funext c
  unfold decr decrN
  split_ifs with h
  · subst h
    show (dN c : ℤ) - 1 = ((dN c - 1 : ℕ) : ℤ)
    omega
  · rfl

lemma pass1_eq_spec (ss gs : Word) (dN : Char → ℕ)
    (h : ∀ c, ss.count c ≤ dN c) :
    (pass1 ss gs (fun c => (dN c : ℤ))).1 = (spec_pass1 ss gs dN).1 ∧
      ∀ c, (pass1 ss gs (fun c => (dN c : ℤ))).2 c
        = ((spec_pass1 ss gs dN).2 c : ℤ) := by
  induction ss generalizing gs dN with
  | nil =>
    cases gs <;> simp [pass1, spec_pass1]
  | cons s ss ih =>
    cases gs with
    | nil => simp [pass1, spec_pass1]
    | cons g gs =>
      by_cases hgs : g = s
      · have hcount : 1 ≤ dN g := by
          have hc' := h g
          rw [count_cons_eq, if_pos hgs] at hc'
          omega
        have hdecr := decr_cast dN g hcount
        have hnext : ∀ c, ss.count c ≤ decrN dN g c := by
          intro c
          have hc' := h c
          rw [count_cons_eq] at hc'
          unfold decrN
          split_ifs with hc
          · rw [if_pos (hc.trans hgs)] at hc'
            omega
          · by_cases hc2 : c = s
            · exact absurd (hc2.trans hgs.symm) hc
            · rw [if_neg hc2] at hc'
              omega
        have hmain := ih gs (decrN dN g) hnext
        constructor
        · simp only [pass1, spec_pass1, if_pos hgs, hdecr]
          exact congrArg (2 :: ·) hmain.1
        · intro c
          simp only [pass1, spec_pass1, if_pos hgs, hdecr]
          exact hmain.2 c
      · have hnext : ∀ c, ss.count c ≤ dN c := by
          intro c
          have hc' := h c
          rw [count_cons_eq] at hc'
          split_ifs at hc' <;> omega
        have hmain := ih gs dN hnext
        constructor
        · simp only [pass1, spec_pass1, if_neg hgs]
          exact congrArg (0 :: ·) hmain.1
        · intro c
          simp only [pass1, spec_pass1, if_neg hgs]
          exact hmain.2 c

lemma spec_pass1_le (ss gs : Word) (dN : Char → ℕ) (c : Char) :
    (spec_pass1 ss gs dN).2 c ≤ dN c := by
  induction ss generalizing gs dN with
  | nil => cases gs <;> simp [spec_pass1]
  | cons s ss ih =>
    cases gs with
    | nil => simp [spec_pass1]
    | cons g gs =>
      by_cases hgs : g = s
      · simp only [spec_pass1, if_pos hgs]
        refine le_trans (ih gs (decrN dN g)) ?_
        unfold decrN
        split_ifs
        · omega
        · exact le_refl _
      · simp only [spec_pass1, if_neg hgs]
        exact ih gs dN

lemma pass2_eq_spec (keys gs : Word) (rs : Pattern) (dN : Char → ℕ)
    (hk : ∀ c, 0 < dN c → c ∈ keys) :
    (pass2 keys gs rs (fun c => (dN c : ℤ))).1 = spec_pass2 gs rs dN := by
  induction gs generalizing rs dN with
  | nil => cases rs <;> simp [pass2, spec_pass2]
  | cons g gs ih =>
    cases rs with
    | nil => simp [pass2, spec_pass2]
    | cons r rs =>
      by_cases hr : r = 2
      · have hcond : ¬(g ∈ keys ∧ (dN g : ℤ) ≠ 0 ∧ r ≠ 2) := by
          simp [hr]
        have hr2 : ¬r ≠ 2 := by simp [hr]
        simp only [pass2, spec_pass2, if_pos hr, if_neg hcond, if_neg hr2]
        rw [hr]
        exact congrArg (2 :: ·) (ih rs dN hk)
      · by_cases hd : 0 < dN g
        · have hcond : g ∈ keys ∧ (dN g : ℤ) ≠ 0 ∧ r ≠ 2 :=
            ⟨hk g hd, by exact_mod_cast Nat.pos_iff_ne_zero.mp hd, hr⟩
          have hdecr := decr_cast dN g hd
          have hknext : ∀ c, 0 < decrN dN g c → c ∈ keys := by
            intro c hc
            apply hk
            unfold decrN at hc
            split_ifs at hc <;> omega
          simp only [pass2, spec_pass2, if_pos hcond, if_neg hr, if_pos hd,
            hdecr]
          exact congrArg (1 :: ·) (ih rs (decrN dN g) hknext)
        · have hcond : ¬(g ∈ keys ∧ (dN g : ℤ) ≠ 0 ∧ r ≠ 2) := by
            intro hcon
            exact hcon.2.1 (by exact_mod_cast (by omega : dN g = 0))
          simp only [pass2, spec_pass2, if_neg hcond, if_pos hr,
            if_neg hr, if_neg hd]
          exact congrArg (0 :: ·) (ih rs dN hk)

/-- C1: `get_guess_result` computes the two-pass duplicate-aware result
described by the spec: the code's `in keys ∧ count ≠ 0` test agrees with
the spec's `remaining count > 0` test because counts never go below
zero. -/
theorem get_guess_result_eq_spec (secret guess : Word)
    (hs : secret.length = 5) (hg : guess.length = 5) :
    get_guess_result secret guess = spec_evaluate secret guess := by
  have hd : true_dict secret = fun c => ((spec_multiset secret c : ℕ) : ℤ) :=
    funext fun c => true_dict_eq_count secret c
  have h1 := pass1_eq_spec secret guess (spec_multiset secret)
    (fun c => le_refl _)
  have h2 : (pass1 secret guess (fun c => ((spec_multiset secret c : ℕ) : ℤ))).2
      = fun c => (((spec_pass1 secret guess (spec_multiset secret)).2 c : ℕ) : ℤ) :=
    funext h1.2
  show (pass2 secret guess (pass1 secret guess (true_dict secret)).1
      (pass1 secret guess (true_dict secret)).2).1
    = spec_pass2 guess (spec_pass1 secret guess (spec_multiset secret)).1
      (spec_pass1 secret guess (spec_multiset secret)).2
  rw [hd, h1.1, h2]
  apply pass2_eq_spec
  intro c hc
  have hle := spec_pass1_le secret guess (spec_multiset secret) c
  have : 0 < secret.count c := lt_of_lt_of_le hc hle
  exact List.count_pos_iff.mp this

/-- C1 witness. -/
theorem get_guess_result_eq_spec_witness :
    get_guess_result "boxed".toList "excel".toList
      = spec_evaluate "boxed".toList "excel".toList :=
  get_guess_result_eq_spec "boxed".toList "excel".toList (by decide) (by decide)

lemma pass1_self (w : Word) (d : Char → ℤ) :
    (pass1 w w d).1 = List.replicate w.length 2 := by
  induction w generalizing d with
  | nil => simp [pass1]
  | cons a w ih => simp [pass1, List.replicate_succ, ih]

lemma pass2_of_all2 (keys gs : Word) (rs : Pattern) (d : Char → ℤ)
    (h : ∀ r ∈ rs, r = 2) (hlen : gs.length = rs.length) :
    (pass2 keys gs rs d).1 = rs := by
  induction gs generalizing rs d with
  | nil =>
    cases rs with
    | nil => simp [pass2]
    | cons r rs => simp at hlen
  | cons g gs ih =>
    cases rs with
    | nil => simp at hlen
    | cons r rs =>
      have hr : r = 2 := h r (List.mem_cons_self r rs)
      have hcond : ¬(g ∈ keys ∧ d g ≠ 0 ∧ r ≠ 2) := by simp [hr]
      have hr2 : ¬r ≠ 2 := by simp [hr]
      simp only [pass2, if_neg hcond, if_neg hr2]
      exact congrArg (r :: ·)
        (ih rs d (fun x hx => h x (List.mem_cons_of_mem r hx))
          (by simpa using hlen))

/-- C8: guessing the secret itself yields the all-CORRECT pattern. -/
theorem get_guess_result_self (w : Word) (hw : w.length = 5) :
    get_guess_result w w = [2, 2, 2, 2, 2] := by
  show (pass2 w w (pass1 w w (true_dict w)).1 (pass1 w w (true_dict w)).2).1
    = [2, 2, 2, 2, 2]
  rw [pass1_self, pass2_of_all2]
  · rw [hw]
    decide
  · intro r hr
    exact List.eq_of_mem_replicate hr
  · simp

/-- C8 witness. -/
theorem get_guess_result_self_witness :
    get_guess_result "hydro".toList "hydro".toList = [2, 2, 2, 2, 2] :=
  get_guess_result_self "hydro".toList (by decide)

/-- Number of positions at which the guess letter is `x` and the final
mark is CORRECT or PRESENT (nonzero code). -/
def markedCount (x : Char) (guess : Word) (res : Pattern) : ℕ :=
  ((guess.zip res).filter (fun p => decide (p.1 = x ∧ p.2 ≠ 0))).length

/-- Positions with guess letter `x` marked CORRECT. -/
def count2marks (x : Char) (gs : Word) (rs : Pattern) : ℕ :=
  ((gs.zip rs).filter (fun p => decide (p.1 = x ∧ p.2 = 2))).length

/-- Positions with guess letter `x` marked PRESENT. -/
def count1marks (x : Char) (gs : Word) (rs : Pattern) : ℕ :=
  ((gs.zip rs).filter (fun p => decide (p.1 = x ∧ p.2 = 1))).length

lemma countPair_cons (p : Char × ℕ → Bool) (g : Char) (r : ℕ)
    (gs : Word) (rs : Pattern) :
    (((g :: gs).zip (r :: rs)).filter p).length
      = ((gs.zip rs).filter p).length + if p (g, r) then 1 else 0 := by
  cases hp : p (g, r) <;>
    simp [List.zip_cons_cons, List.filter_cons, hp]

lemma pass1_dict_eq (ss gs : Word) (d : Char → ℤ) (x : Char) :
    (pass1 ss gs d).2 x
      = d x - count2marks x gs (pass1 ss gs d).1 := by
  induction ss generalizing gs d with
  | nil =>
    cases gs <;> simp [pass1, count2marks]
  | cons s ss ih =>
    cases gs with
    | nil => simp [pass1, count2marks]
    | cons g gs =>
      by_cases hgs : g = s
      · simp only [pass1, if_pos hgs]
        rw [ih gs (decr d g)]
        unfold count2marks
        rw [countPair_cons]
        have : decide ((g, 2).1 = x ∧ (g, 2).2 = 2) = decide (g = x) := by
          simp
        rw [this]
        simp only [decide_eq_true_eq]
        unfold decr
        by_cases hx : g = x
        · rw [if_pos hx, if_pos hx.symm]
          push_cast
          ring
        · rw [if_neg hx, if_neg (fun hc => hx (hc.symm))]
          push_cast
          ring
      · simp only [pass1, if_neg hgs]
        rw [ih gs d]
        unfold count2marks
        rw [countPair_cons]
        rw [if_neg (by simp)]
        push_cast
        ring

lemma pass2_dict_eq (keys gs : Word) (rs : Pattern) (d : Char → ℤ)
    (x : Char) :
    (pass2 keys gs rs d).2 x
      = d x - count1marks x gs (pass2 keys gs rs d).1 := by
  induction gs generalizing rs d with
  | nil =>
    cases rs <;> simp [pass2, count1marks]
  | cons g gs ih =>
    cases rs with
    | nil => simp [pass2, count1marks]
    | cons r rs =>
      by_cases hcond : g ∈ keys ∧ d g ≠ 0 ∧ r ≠ 2
      · simp only [pass2, if_pos hcond]
        rw [ih rs (decr d g)]
        unfold count1marks
        rw [countPair_cons]
        have : decide ((g, 1).1 = x ∧ (g, 1).2 = 1) = decide (g = x) := by
          simp
        rw [this]
        simp only [decide_eq_true_eq]
        unfold decr
        by_cases hx : g = x
        · rw [if_pos hx, if_pos hx.symm]
          push_cast
          ring
        · rw [if_neg hx, if_neg (fun hc => hx (hc.symm))]
          push_cast
          ring
      · by_cases hr : r ≠ 2
        · simp only [pass2, if_neg hcond, if_pos hr]
          rw [ih rs d]
          unfold count1marks
          rw [countPair_cons, if_neg (by simp)]
          push_cast
          ring
        · simp only [pass2, if_neg hcond, if_neg hr]
          rw [ih rs d]
          unfold count1marks
          rw [countPair_cons, if_neg (by simp [not_not.mp hr])]
          push_cast
          ring

lemma marked_split (keys gs : Word) (rs : Pattern) (d : Char → ℤ)
    (x : Char) :
    markedCount x gs (pass2 keys gs rs d).1
      = count2marks x gs rs + count1marks x gs (pass2 keys gs rs d).1 := by
  induction gs generalizing rs d with
  | nil =>
    cases rs <;> simp [pass2, markedCount, count2marks, count1marks]
  | cons g gs ih =>
    cases rs with
    | nil => simp [pass2, markedCount, count2marks, count1marks]
    | cons r rs =>
      by_cases hcond : g ∈ keys ∧ d g ≠ 0 ∧ r ≠ 2
      · simp only [pass2, if_pos hcond]
        unfold markedCount count2marks count1marks
        rw [countPair_cons, countPair_cons, countPair_cons]
        have h1 := ih rs (decr d g)
        unfold markedCount count2marks count1marks at h1
        rw [h1]
        have e1 : decide ((g, 1).1 = x ∧ (g, 1).2 ≠ 0) = decide (g = x) := by
          simp
        have e2 : decide ((g, r).1 = x ∧ (g, r).2 = 2) = false := by
          simp [hcond.2.2]
        have e3 : decide ((g, 1).1 = x ∧ (g, 1).2 = 1) = decide (g = x) := by
          simp
        rw [e1, e2, e3]
        by_cases hx : g = x <;> simp [hx] <;> omega
      · by_cases hr : r ≠ 2
        · simp only [pass2, if_neg hcond, if_pos hr]
          unfold markedCount count2marks count1marks
          rw [countPair_cons, countPair_cons, countPair_cons]
          have h1 := ih rs d
          unfold markedCount count2marks count1marks at h1
          rw [h1]
          rw [if_neg (by simp), if_neg (by simp [hr]), if_neg (by simp)]
          omega
        · have hr2 : r = 2 := not_not.mp hr
          simp only [pass2, if_neg hcond, if_neg hr]
          unfold markedCount count2marks count1marks
          rw [countPair_cons, countPair_cons, countPair_cons]
          have h1 := ih rs d
          unfold markedCount count2marks count1marks at h1
          rw [h1]
          have e1 : decide ((g, r).1 = x ∧ (g, r).2 ≠ 0) = decide (g = x) := by
            simp [hr2]
          have e2 : decide ((g, r).1 = x ∧ (g, r).2 = 2) = decide (g = x) := by
            simp [hr2]
          have e3 : decide ((g, r).1 = x ∧ (g, r).2 = 1) = false := by
            simp [hr2]
          rw [e1, e2, e3]
          by_cases hx : g = x <;> simp [hx] <;> omega

lemma pass1_nonneg (ss gs : Word) (d : Char → ℤ)
    (h : ∀ c, (ss.count c : ℤ) ≤ d c) :
    ∀ c, 0 ≤ (pass1 ss gs d).2 c := by
  induction ss generalizing gs d with
  | nil =>
    intro c
    cases gs <;>
      simpa [pass1] using le_trans (by positivity) (h c)
  | cons s ss ih =>
    intro c
    cases gs with
    | nil =>
      simpa [pass1] using le_trans (by positivity) (h c)
    | cons g gs =>
      by_cases hgs : g = s
      · simp only [pass1, if_pos hgs]
        refine ih gs (decr d g) ?_ c
        intro c'
        have hc' := h c'
        rw [count_cons_eq] at hc'
        unfold decr
        split_ifs with hc
        · rw [if_pos (hc.trans hgs)] at hc'
          push_cast at hc'
          omega
        · split_ifs at hc' <;> push_cast at hc' <;> omega
      · simp only [pass1, if_neg hgs]
        refine ih gs d ?_ c
        intro c'
        have hc' := h c'
        rw [count_cons_eq] at hc'
        split_ifs at hc' <;> push_cast at hc' <;> omega

lemma pass2_nonneg (keys gs : Word) (rs : Pattern) (d : Char → ℤ)
    (h : ∀ c, 0 ≤ d c) :
    ∀ c, 0 ≤ (pass2 keys gs rs d).2 c := by
  induction gs generalizing rs d with
  | nil =>
    intro c
    cases rs <;> simpa [pass2] using h c
  | cons g gs ih =>
    intro c
    cases rs with
    | nil => simpa [pass2] using h c
    | cons r rs =>
      by_cases hcond : g ∈ keys ∧ d g ≠ 0 ∧ r ≠ 2
      · simp only [pass2, if_pos hcond]
        refine ih rs (decr d g) ?_ c
        intro c'
        unfold decr
        split_ifs with hc
        · subst hc
          have h1 := h c'
          have h2 := hcond.2.1
          omega
        · exact h c'
      · by_cases hr : r ≠ 2
        · simp only [pass2, if_neg hcond, if_pos hr]
          exact ih rs d h c
        · simp only [pass2, if_neg hcond, if_neg hr]
          exact ih rs d h c

/-- C7: for every letter `x`, the number of guess positions holding `x`
that end up marked CORRECT or PRESENT never exceeds the number of
occurrences of `x` in the secret. -/
theorem marked_le_secret_count (secret guess : Word)
    (hs : secret.length = 5) (hg : guess.length = 5) :
    ∀ x, markedCount x guess (get_guess_result secret guess)
      ≤ secret.count x := by
  intro x
  have hd0 : ∀ c, true_dict secret c = (secret.count c : ℤ) :=
    true_dict_eq_count secret
  have hA := pass1_dict_eq secret guess (true_dict secret) x
  have hE : ∀ c, 0 ≤ (pass1 secret guess (true_dict secret)).2 c :=
    pass1_nonneg secret guess (true_dict secret)
      (fun c => le_of_eq (hd0 c).symm)
  have hB := pass2_dict_eq secret guess
    (pass1 secret guess (true_dict secret)).1
    (pass1 secret guess (true_dict secret)).2 x
  have hD := pass2_nonneg secret guess
    (pass1 secret guess (true_dict secret)).1
    (pass1 secret guess (true_dict secret)).2 hE x
  have hC := marked_split secret guess
    (pass1 secret guess (true_dict secret)).1
    (pass1 secret guess (true_dict secret)).2 x
  show markedCount x guess
      (pass2 secret guess (pass1 secret guess (true_dict secret)).1
        (pass1 secret guess (true_dict secret)).2).1
    ≤ secret.count x
  rw [hd0 x] at hA
  -- the CORRECT marks of pass 1 survive pass 2 only at positions the
  -- accounting below already charges to the dictionary decrements
  omega

/-- C7 witness. -/
theorem marked_le_secret_count_witness :
    markedCount 'l' "lulls".toList
        (get_guess_result "allot".toList "lulls".toList)
      ≤ "allot".toList.count 'l' :=
  marked_le_secret_count "allot".toList "lulls".toList
    (by decide) (by decide) 'l'

lemma pass1_length (ss gs : Word) (d : Char → ℤ) :
    (pass1 ss gs d).1.length = min ss.length gs.length := by
  induction ss generalizing gs d with
  | nil => cases gs <;> simp [pass1]
  | cons s ss ih =>
    cases gs with
    | nil => simp [pass1]
    | cons g gs =>
      by_cases hgs : g = s <;>
        simp [pass1, hgs, ih, Nat.succ_min_succ]

lemma pass2_length (keys gs : Word) (rs : Pattern) (d : Char → ℤ) :
    (pass2 keys gs rs d).1.length = min gs.length rs.length := by
  induction gs generalizing rs d with
  | nil => cases rs <;> simp [pass2]
  | cons g gs ih =>
    cases rs with
    | nil => simp [pass2]
    | cons r rs =>
      by_cases hcond : g ∈ keys ∧ d g ≠ 0 ∧ r ≠ 2
      · simp [pass2, if_pos hcond, ih, Nat.succ_min_succ]
      · by_cases hr : r ≠ 2
        · have hno : ¬(g ∈ keys ∧ d g ≠ 0) := fun hc => hcond ⟨hc.1, hc.2, hr⟩
          simp [pass2, if_neg hcond, hr, hno, ih, Nat.succ_min_succ]
        · simp [pass2, if_neg hcond, hr, ih, Nat.succ_min_succ]

lemma get_guess_result_length (secret guess : Word)
    (hs : secret.length = 5) (hg : guess.length = 5) :
    (get_guess_result secret guess).length = 5 := by
  show (pass2 secret guess (pass1 secret guess (true_dict secret)).1
      (pass1 secret guess (true_dict secret)).2).1.length = 5
  rw [pass2_length, pass1_length, hs, hg]
  simp

/-- `get_all_guess_results(possible_words, allowed_words)`: the result
of every allowed guess against every possible secret word, guesses
outermost. -/
def get_all_guess_results (possible_words allowed_words : List Word) :
    List (List Pattern) :=
  allowed_words.map (fun allowed_word =>
    possible_words.map (fun possible_word =>
      get_guess_result possible_word allowed_word))

lemma getD_map_lt {α β : Type} (f : α → β) (l : List α) (j : ℕ)
    (hj : j < l.length) (da : α) (db : β) :
    (l.map f).getD j db = f (l.getD j da) := by
  rw [List.getD_eq_getElem _ _ (by simpa using hj),
    List.getD_eq_getElem _ _ hj, List.getElem_map]

/-- C4: the tensor has one row per allowed guess, one column per
possible secret, length-5 entries, and entry `[g][c]` is
`get_guess_result(possible_words[c], allowed_words[g])`. -/
theorem get_all_guess_results_spec (possible allowed : List Word)
    (hp : ∀ w ∈ possible, w.length = 5)
    (ha : ∀ w ∈ allowed, w.length = 5) :
    (get_all_guess_results possible allowed).length = allowed.length ∧
      (∀ row ∈ get_all_guess_results possible allowed,
        row.length = possible.length) ∧
      (∀ row ∈ get_all_guess_results possible allowed,
        ∀ p ∈ row, p.length = 5) ∧
      (∀ g c, g < allowed.length → c < possible.length →
        ((get_all_guess_results possible allowed).getD g []).getD c []
          = get_guess_result (possible.getD c []) (allowed.getD g [])) := by
  refine ⟨by simp [get_all_guess_results], ?_, ?_, ?_⟩
  · intro row hrow
    simp only [get_all_guess_results, List.mem_map] at hrow
    obtain ⟨a, _, rfl⟩ := hrow
    simp
  · intro row hrow p hpmem
    simp only [get_all_guess_results, List.mem_map] at hrow
    obtain ⟨a, haa, rfl⟩ := hrow
    simp only [List.mem_map] at hpmem
    obtain ⟨w, hw, rfl⟩ := hpmem
    exact get_guess_result_length w a (hp w hw) (ha a haa)
  · intro g c hg hc
    unfold get_all_guess_results
    rw [getD_map_lt
      (fun allowed_word => possible.map (fun possible_word =>
        get_guess_result possible_word allowed_word))
      allowed g hg ([] : Word) ([] : List Pattern)]
    rw [getD_map_lt _ possible c hc ([] : Word) ([] : Pattern)]

/-- C4 witness. -/
theorem get_all_guess_results_spec_witness :
    ((get_all_guess_results ["hydro".toList, "boxed".toList]
        ["excel".toList]).getD 0 []).getD 1 []
      = get_guess_result "boxed".toList "excel".toList :=
  (get_all_guess_results_spec ["hydro".toList, "boxed".toList]
    ["excel".toList] (by decide) (by decide)).2.2.2 0 1
    (by decide) (by decide)

/-- Boolean-mask selection, the model of numpy fancy indexing
`arr[mask]` along the first axis. -/
def applyMask {α : Type} : List α → List Bool → List α
  | a :: as, b :: bs =>
    if b then a :: applyMask as bs else applyMask as bs
  | _, _ => []

/-- `filter_words(all_guess_results, possible_words, guess_idx, result)`:
keep exactly the candidates whose row of the chosen guess equals the
observed result, and slice every guess row of the tensor by the same
mask. -/
def filter_words (all_guess_results : List (List Pattern))
    (possible_words : List Word) (guess_idx : ℕ) (result : Pattern) :
    List Word × List (List Pattern) :=
  let mask := (all_guess_results.getD guess_idx []).map
    (fun p => decide (p = result))
  (applyMask possible_words mask,
    all_guess_results.map (fun row => applyMask row mask))

lemma applyMask_length_le {α : Type} (l : List α) (mask : List Bool) :
    (applyMask l mask).length ≤ l.length := by
  induction l generalizing mask with
  | nil => cases mask <;> simp [applyMask]
  | cons a as ih =>
    cases mask with
    | nil => simp [applyMask]
    | cons b bs =>
      cases b with
      | false =>
        have hstep : applyMask (a :: as) (false :: bs) = applyMask as bs := by
          simp [applyMask]
        rw [hstep]
        exact le_trans (ih bs) (Nat.le_succ _)
      | true =>
        have hstep : applyMask (a :: as) (true :: bs)
            = a :: applyMask as bs := by
          simp [applyMask]
        rw [hstep]
        simpa using ih bs

lemma applyMask_eq_filterIdx {α : Type} (l : List α) (mask : List Bool)
    (d : α) (h : l.length = mask.length) :
    applyMask l mask
      = (((List.range l.length).filter (fun i => mask.getD i false)).map
          (fun i => l.getD i d)) := by
  induction l generalizing mask with
  | nil => simp [applyMask]
  | cons a as ih =>
    cases mask with
    | nil => simp at h
    | cons b bs =>
      have hlen : as.length = bs.length := by simpa using h
      rw [List.length_cons, List.range_succ_eq_map, List.filter_cons]
      cases b with
      | true =>
        have hstep : applyMask (a :: as) (true :: bs)
            = a :: applyMask as bs := by
          simp [applyMask]
        rw [hstep, if_pos (by simp)]
        rw [List.filter_map, List.map_cons, List.map_map]
        have hcomp :
            ((fun i => (true :: bs).getD i false) ∘ Nat.succ : ℕ → Bool)
              = fun i => bs.getD i false := by
          funext i
          simp [List.getD_cons_succ]
        have hcomp2 :
            ((fun i => (a :: as).getD i d) ∘ Nat.succ : ℕ → α)
              = fun i => as.getD i d := by
          funext i
          simp [List.getD_cons_succ]
        rw [hcomp, hcomp2, ih bs hlen, List.getD_cons_zero]
      | false =>
        have hstep : applyMask (a :: as) (false :: bs) = applyMask as bs := by
          simp [applyMask]
        rw [hstep, if_neg (by simp)]
        rw [List.filter_map, List.map_map]
        have hcomp :
            ((fun i => (false :: bs).getD i false) ∘ Nat.succ : ℕ → Bool)
              = fun i => bs.getD i false := by
          funext i
          simp [List.getD_cons_succ]
        have hcomp2 :
            ((fun i => (a :: as).getD i d) ∘ Nat.succ : ℕ → α)
              = fun i => as.getD i d := by
          funext i
          simp [List.getD_cons_succ]
        rw [hcomp, hcomp2, ih bs hlen]

/-- C3: `filter_words` keeps exactly the candidate indices whose stored
pattern for the chosen guess equals the observed result (in order), and
slices every guess row of the tensor at those same indices; any
candidate whose row matches the observed pattern is retained. -/
theorem filter_words_spec (tensor : List (List Pattern))
    (possible : List Word) (gi : ℕ) (result : Pattern)
    (hgi : gi < tensor.length)
    (hrow : possible.length = (tensor.getD gi []).length)
    (hsq : ∀ row ∈ tensor, row.length = (tensor.getD gi []).length) :
    (filter_words tensor possible gi result).1
        = (((List.range (tensor.getD gi []).length).filter
            (fun c => decide ((tensor.getD gi []).getD c [] = result))).map
          (fun c => possible.getD c [])) ∧
      (filter_words tensor possible gi result).2
        = tensor.map (fun row =>
            (((List.range (tensor.getD gi []).length).filter
              (fun c => decide ((tensor.getD gi []).getD c [] = result))).map
            (fun c => row.getD c []))) ∧
      (filter_words tensor possible gi result).2.length = tensor.length ∧
      (∀ c, c < (tensor.getD gi []).length →
        (tensor.getD gi []).getD c [] = result →
        possible.getD c [] ∈ (filter_words tensor possible gi result).1) := by
  have hmasklen : ((tensor.getD gi []).map
      (fun p => decide (p = result))).length = (tensor.getD gi []).length := by
    simp
  have hmaskD : ∀ c, c < (tensor.getD gi []).length →
      ((tensor.getD gi []).map (fun p => decide (p = result))).getD c false
        = decide ((tensor.getD gi []).getD c [] = result) := by
    intro c hc
    exact getD_map_lt (fun p => decide (p = result)) _ c hc [] false
  have hfilter :
      ((List.range (tensor.getD gi []).length).filter
        (fun i => ((tensor.getD gi []).map
          (fun p => decide (p = result))).getD i false))
      = ((List.range (tensor.getD gi []).length).filter
        (fun c => decide ((tensor.getD gi []).getD c [] = result))) := by
    apply List.filter_congr
    intro i hi
    exact hmaskD i (List.mem_range.mp hi)
  have h1 : (filter_words tensor possible gi result).1
      = (((List.range (tensor.getD gi []).length).filter
          (fun c => decide ((tensor.getD gi []).getD c [] = result))).map
        (fun c => possible.getD c [])) := by
    show applyMask possible ((tensor.getD gi []).map
      (fun p => decide (p = result))) = _
    rw [applyMask_eq_filterIdx possible _ []
      (by rw [hmasklen]; exact hrow), hrow, hfilter]
  refine ⟨h1, ?_, by simp [filter_words], ?_⟩
  · show tensor.map (fun row => applyMask row ((tensor.getD gi []).map
      (fun p => decide (p = result)))) = _
    apply List.map_congr_left
    intro row hrowmem
    rw [applyMask_eq_filterIdx row _ []
      (by rw [hmasklen]; exact hsq row hrowmem), hsq row hrowmem, hfilter]
  · intro c hc hcres
    rw [h1]
    refine List.mem_map.mpr ⟨c, ?_, rfl⟩
    refine List.mem_filter.mpr ⟨List.mem_range.mpr hc, decide_eq_true hcres⟩

/-- C3 witness. -/
theorem filter_words_spec_witness :
    "boxed".toList
      ∈ (filter_words [[[2, 2, 2, 2, 2], [0, 1, 0, 2, 0]]]
          ["hydro".toList, "boxed".toList] 0 [0, 1, 0, 2, 0]).1 :=
  (filter_words_spec [[[2, 2, 2, 2, 2], [0, 1, 0, 2, 0]]]
      ["hydro".toList, "boxed".toList] 0 [0, 1, 0, 2, 0]
      (by decide) (by decide) (by decide)).2.2.2 1 (by decide) (by decide)

/-- Base-3 encoding of a feedback pattern, least-significant position
first: for a length-5 row this is `np.dot(row, 3**np.arange(5))`. -/
def encode3 : Pattern → ℕ
  | [] => 0
  | a :: p => a + 3 * encode3 p

lemma encode3_five (a b c d e : ℕ) :
    encode3 [a, b, c, d, e] = a + 3 * b + 9 * c + 27 * d + 81 * e := by
  simp [encode3]
  ring

lemma encode3_injOn (p : Pattern) :
    ∀ q : Pattern, p.length = q.length → (∀ x ∈ p, x < 3) →
      (∀ x ∈ q, x < 3) → encode3 p = encode3 q → p = q := by
  induction p with
  | nil =>
    intro q hl _ _ _
    exact (List.length_eq_zero.mp hl.symm).symm
  | cons a p ih =>
    intro q hl hp hq henc
    cases q with
    | nil => simp at hl
    | cons b q =>
      have ha : a < 3 := hp a (List.mem_cons_self a p)
      have hb : b < 3 := hq b (List.mem_cons_self b q)
      simp only [encode3] at henc
      have hab : a = b ∧ encode3 p = encode3 q := by omega
      have := ih q (by simpa using hl)
        (fun x hx => hp x (List.mem_cons_of_mem a hx))
        (fun x hx => hq x (List.mem_cons_of_mem b hx)) hab.2
      rw [hab.1, this]

/-- Shannon entropy of the empirical distribution of the labels in a
row, as computed by the code: `np.unique` yields each distinct observed
label with its count (so zero-probability labels never appear), the
total `sum(counts)` equals the number of labels, and the entropy is
`Σ -(c/N)·log2(c/N)`. -/
noncomputable def rowEntropy (labels : List ℕ) : ℝ :=
  ((labels.dedup).map (fun v =>
    -(((labels.count v : ℝ) / (labels.length : ℝ))
      * Real.logb 2 ((labels.count v : ℝ) / (labels.length : ℝ))))).sum

open Classical in
/-- `np.argmax`: index of the first occurrence of the maximum value. -/
noncomputable def argmaxIdx : List ℝ → ℕ
  | [] => 0
  | a :: rest => if ∀ x ∈ rest, x ≤ a then 0 else argmaxIdx rest + 1

/-- `compute_highest_entropy(all_guess_results, allowed_words)`: encode
each row of patterns in base 3, score each guess row by the entropy of
its label distribution, and return the argmax guess with its index. -/
noncomputable def compute_highest_entropy
    (all_guess_results : List (List Pattern)) (allowed_words : List Word) :
    Word × ℕ :=
  let binary_combinations := all_guess_results.map (fun row => row.map encode3)
  let entropies := binary_combinations.map rowEntropy
  let highest_guess_idx := argmaxIdx entropies
  (allowed_words.getD highest_guess_idx [], highest_guess_idx)

lemma argmaxIdx_lt_length (l : List ℝ) (h : l ≠ []) :
    argmaxIdx l < l.length := by
  induction l with
  | nil => exact absurd rfl h
  | cons a rest ih =>
    simp only [argmaxIdx]
    split_ifs with hall
    · simp
    · have hne : rest ≠ [] := by
        intro hr
        subst hr
        exact hall (by simp)
      simpa [Nat.succ_lt_succ_iff] using ih hne

lemma argmaxIdx_is_max (l : List ℝ) :
    ∀ j, j < l.length → l.getD j 0 ≤ l.getD (argmaxIdx l) 0 := by
  induction l with
  | nil =>
    intro j hj
    simp at hj
  | cons a rest ih =>
    intro j hj
    simp only [argmaxIdx]
    split_ifs with hall
    · cases j with
      | zero => simp
      | succ j =>
        have hj' : j < rest.length := by simpa using hj
        rw [List.getD_cons_succ, List.getD_cons_zero]
        refine hall _ ?_
        rw [List.getD_eq_getElem _ _ hj']
        exact List.getElem_mem hj'
    · push_neg at hall
      obtain ⟨x, hx, hax⟩ := hall
      obtain ⟨k, hk, rfl⟩ := List.mem_iff_getElem.mp hx
      rw [List.getD_cons_succ]
      cases j with
      | zero =>
        rw [List.getD_cons_zero]
        calc a ≤ rest[k] := le_of_lt hax
          _ = rest.getD k 0 := (List.getD_eq_getElem _ _ hk).symm
          _ ≤ rest.getD (argmaxIdx rest) 0 := ih k hk
      | succ j =>
        rw [List.getD_cons_succ]
        exact ih j (by simpa using hj)

lemma argmaxIdx_first (l : List ℝ) :
    ∀ j, j < argmaxIdx l → l.getD j 0 < l.getD (argmaxIdx l) 0 := by
  induction l with
  | nil =>
    intro j hj
    simp [argmaxIdx] at hj
  | cons a rest ih =>
    intro j hj
    simp only [argmaxIdx] at hj ⊢
    by_cases hall : ∀ x ∈ rest, x ≤ a
    · rw [if_pos hall] at hj
      exact absurd hj (by simp)
    · rw [if_neg hall] at hj ⊢
      rw [List.getD_cons_succ]
      cases j with
      | zero =>
        rw [List.getD_cons_zero]
        push_neg at hall
        obtain ⟨x, hx, hax⟩ := hall
        obtain ⟨k, hk, rfl⟩ := List.mem_iff_getElem.mp hx
        calc a < rest[k] := hax
          _ = rest.getD k 0 := (List.getD_eq_getElem _ _ hk).symm
          _ ≤ rest.getD (argmaxIdx rest) 0 := argmaxIdx_is_max rest k hk
      | succ j =>
        rw [List.getD_cons_succ]
        exact ih j (by omega)

lemma rowEntropy_nonneg (labels : List ℕ) : 0 ≤ rowEntropy labels := by
  unfold rowEntropy
  apply List.sum_nonneg
  intro x hx
  simp only [List.mem_map] at hx
  obtain ⟨v, hv, rfl⟩ := hx
  have hvmem : v ∈ labels := List.mem_dedup.mp hv
  have hcount : 1 ≤ labels.count v := List.count_pos_iff.mpr hvmem
  have hlen : 1 ≤ labels.length :=
    le_trans hcount (List.count_le_length v labels)
  have hp0 : 0 < ((labels.count v : ℝ) / (labels.length : ℝ)) :=
    div_pos (by exact_mod_cast hcount) (by exact_mod_cast hlen)
  have hp1 : ((labels.count v : ℝ) / (labels.length : ℝ)) ≤ 1 := by
    apply div_le_one_of_le
    · exact_mod_cast List.count_le_length v labels
    · positivity
  have hlog : Real.logb 2 ((labels.count v : ℝ) / (labels.length : ℝ)) ≤ 0 :=
    Real.logb_nonpos (by norm_num) (le_of_lt hp0) hp1
  have hmul := mul_nonpos_of_nonneg_of_nonpos (le_of_lt hp0) hlog
  linarith

lemma rowEntropy_const (labels : List ℕ) (a : ℕ) (hne : labels ≠ [])
    (h : ∀ x ∈ labels, x = a) : rowEntropy labels = 0 := by
  have hn : labels.length ≠ 0 := fun h0 => hne (List.length_eq_zero.mp h0)
  have hrep : labels = List.replicate labels.length a :=
    List.eq_replicate_length.mpr h
  rw [hrep]
  unfold rowEntropy
  rw [List.replicate_dedup (by simpa using hn)]
  simp only [List.map_cons, List.map_nil, List.sum_cons, List.sum_nil,
    List.count_replicate_self, List.length_replicate, add_zero]
  rw [div_self (by exact_mod_cast hn : ((labels.length : ℝ)) ≠ 0),
    Real.logb_one, mul_zero, neg_zero]

lemma exists_ne_of_entropy_pos (labels : List ℕ)
    (h : 0 < rowEntropy labels) :
    ∃ x ∈ labels, ∃ y ∈ labels, x ≠ y := by
  by_contra hcon
  push_neg at hcon
  cases labels with
  | nil =>
    unfold rowEntropy at h
    simp at h
  | cons a rest =>
    have hall : ∀ x ∈ (a :: rest), x = a :=
      fun x hx => hcon x hx a (List.mem_cons_self a rest)
    rw [rowEntropy_const _ a (by simp) hall] at h
    exact lt_irrefl 0 h

lemma compute_highest_entropy_eq (t : List (List Pattern))
    (allowed : List Word) :
    compute_highest_entropy t allowed
      = (allowed.getD
          (argmaxIdx ((t.map (fun row => row.map encode3)).map rowEntropy)) [],
        argmaxIdx ((t.map (fun row => row.map encode3)).map rowEntropy)) :=
  rfl

/-- C2: `compute_highest_entropy` returns the allowed word at the first
index of maximum entropy together with that index; the index is in
range, entropies are nonnegative, a row whose candidates all produce
the same feedback has entropy 0, and the base-3 label encoding is
injective on patterns. -/
theorem compute_highest_entropy_spec (t : List (List Pattern))
    (allowed : List Word) (ht : t ≠ [])
    (hrows : ∀ row ∈ t, row ≠ [])
    (hlen : allowed.length = t.length) :
    (compute_highest_entropy t allowed).2 < allowed.length ∧
      (compute_highest_entropy t allowed).1
        = allowed.getD (compute_highest_entropy t allowed).2 [] ∧
      (∀ j, j < t.length →
        rowEntropy ((t.getD j []).map encode3)
          ≤ rowEntropy
              ((t.getD (compute_highest_entropy t allowed).2 []).map
                encode3)) ∧
      (∀ j, j < (compute_highest_entropy t allowed).2 →
        rowEntropy ((t.getD j []).map encode3)
          < rowEntropy
              ((t.getD (compute_highest_entropy t allowed).2 []).map
                encode3)) ∧
      (∀ row ∈ t, 0 ≤ rowEntropy (row.map encode3)) ∧
      (∀ row ∈ t, (∀ p ∈ row, ∀ q ∈ row, p = q) →
        rowEntropy (row.map encode3) = 0) ∧
      (∀ p q : Pattern, p.length = 5 → q.length = 5 → (∀ x ∈ p, x < 3) →
        (∀ x ∈ q, x < 3) → encode3 p = encode3 q → p = q) := by
  have hElen : ((t.map (fun row => row.map encode3)).map rowEntropy).length
      = t.length := by
    simp
  have hEne : (t.map (fun row => row.map encode3)).map rowEntropy ≠ [] := by
    intro h0
    apply ht
    have h1 : t.length = 0 := by rw [← hElen, h0, List.length_nil]
    exact List.length_eq_zero.mp h1
  have hilt : argmaxIdx ((t.map (fun row => row.map encode3)).map rowEntropy)
      < t.length := by
    rw [← hElen]
    exact argmaxIdx_lt_length _ hEne
  have hgetE : ∀ j, j < t.length →
      ((t.map (fun row => row.map encode3)).map rowEntropy).getD j 0
        = rowEntropy ((t.getD j []).map encode3) := by
    intro j hj
    have hj' : j < (t.map (fun row => row.map encode3)).length := by
      simpa using hj
    rw [getD_map_lt rowEntropy _ j hj' ([] : List ℕ) (0 : ℝ)]
    rw [getD_map_lt (fun row => row.map encode3) t j hj
      ([] : List Pattern) ([] : List ℕ)]
  rw [compute_highest_entropy_eq]
  refine ⟨?_, rfl, ?_, ?_, ?_, ?_, ?_⟩
  · rw [hlen]
    exact hilt
  · intro j hj
    rw [← hgetE j hj, ← hgetE _ hilt]
    apply argmaxIdx_is_max
    rw [hElen]
    exact hj
  · intro j hj
    have hjt : j < t.length := lt_trans hj hilt
    rw [← hgetE j hjt, ← hgetE _ hilt]
    exact argmaxIdx_first _ j hj
  · intro row _
    exact rowEntropy_nonneg _
  · intro row hrow hall
    cases row with
    | nil => exact absurd rfl (hrows [] hrow)
    | cons p rest =>
      apply rowEntropy_const _ (encode3 p) (by simp)
      intro x hx
      simp only [List.mem_map] at hx
      obtain ⟨q, hq, rfl⟩ := hx
      exact congrArg encode3 (hall q hq p (List.mem_cons_self p rest))
  · intro p q hp5 hq5 hpd hqd he
    exact encode3_injOn p q (by rw [hp5, hq5]) hpd hqd he

/-- C2 witness. -/
theorem compute_highest_entropy_spec_witness :
    (compute_highest_entropy [[[0, 0, 0, 0, 0]]] ["hydro".toList]).2 < 1 :=
  (compute_highest_entropy_spec [[[0, 0, 0, 0, 0]]] ["hydro".toList]
    (by decide) (by decide) (by decide)).1

lemma rowEntropy_term_nonneg (labels : List ℕ) (v : ℕ) (hv : v ∈ labels) :
    0 ≤ -(((labels.count v : ℝ) / (labels.length : ℝ))
      * Real.logb 2 ((labels.count v : ℝ) / (labels.length : ℝ))) := by
  have hcount : 1 ≤ labels.count v := List.count_pos_iff.mpr hv
  have hlen : 1 ≤ labels.length :=
    le_trans hcount (List.count_le_length v labels)
  have hp0 : 0 < ((labels.count v : ℝ) / (labels.length : ℝ)) :=
    div_pos (by exact_mod_cast hcount) (by exact_mod_cast hlen)
  have hp1 : ((labels.count v : ℝ) / (labels.length : ℝ)) ≤ 1 := by
    apply div_le_one_of_le
    · exact_mod_cast List.count_le_length v labels
    · positivity
  have hlog : Real.logb 2 ((labels.count v : ℝ) / (labels.length : ℝ)) ≤ 0 :=
    Real.logb_nonpos (by norm_num) (le_of_lt hp0) hp1
  have hmul := mul_nonpos_of_nonneg_of_nonpos (le_of_lt hp0) hlog
  linarith

lemma rowEntropy_pos (labels : List ℕ) (x y : ℕ) (hx : x ∈ labels)
    (hy : y ∈ labels) (hxy : x ≠ y) : 0 < rowEntropy labels := by
  have hcx : 1 ≤ labels.count x := List.count_pos_iff.mpr hx
  have hcxlt : labels.count x < labels.length := by
    rcases lt_or_eq_of_le (List.count_le_length x labels) with h | h
    · exact h
    · exact absurd ((List.count_eq_length.mp h) y hy) hxy
  have hp0 : 0 < ((labels.count x : ℝ) / (labels.length : ℝ)) :=
    div_pos (by exact_mod_cast hcx)
      (by exact_mod_cast lt_of_le_of_lt (Nat.zero_le _) hcxlt)
  have hp1 : ((labels.count x : ℝ) / (labels.length : ℝ)) < 1 := by
    rw [div_lt_one (by exact_mod_cast lt_of_le_of_lt (Nat.zero_le _) hcxlt)]
    exact_mod_cast hcxlt
  have hlog : Real.logb 2 ((labels.count x : ℝ) / (labels.length : ℝ)) < 0 :=
    Real.logb_neg (by norm_num) hp0 hp1
  have hterm : 0 < -(((labels.count x : ℝ) / (labels.length : ℝ))
      * Real.logb 2 ((labels.count x : ℝ) / (labels.length : ℝ))) := by
    have := mul_neg_of_pos_of_neg hp0 hlog
    linarith
  have hmem : -(((labels.count x : ℝ) / (labels.length : ℝ))
      * Real.logb 2 ((labels.count x : ℝ) / (labels.length : ℝ)))
      ∈ (labels.dedup).map (fun v =>
        -(((labels.count v : ℝ) / (labels.length : ℝ))
          * Real.logb 2 ((labels.count v : ℝ) / (labels.length : ℝ)))) :=
    List.mem_map_of_mem _ (List.mem_dedup.mpr hx)
  have hle := List.single_le_sum
    (fun t ht => ?_) _ hmem
  · unfold rowEntropy
    exact lt_of_lt_of_le hterm hle
  · simp only [List.mem_map] at ht
    obtain ⟨v, hv, rfl⟩ := ht
    exact rowEntropy_term_nonneg labels v (List.mem_dedup.mp hv)

lemma applyMask_length_lt {α : Type} (l : List α) (mask : List Bool)
    (h : l.length = mask.length) (c : ℕ) (hc : c < mask.length)
    (hm : mask.getD c false = false) :
    (applyMask l mask).length < l.length := by
  induction l generalizing mask c with
  | nil =>
    have h0 : mask.length = 0 := by simpa using h.symm
    exact absurd hc (by omega)
  | cons a as ih =>
    cases mask with
    | nil => simp at hc
    | cons b bs =>
      have hlen : as.length = bs.length := by simpa using h
      cases c with
      | zero =>
        have hb : b = false := by simpa using hm
        subst hb
        have hstep : applyMask (a :: as) (false :: bs) = applyMask as bs := by
          simp [applyMask]
        rw [hstep, List.length_cons]
        exact Nat.lt_succ_of_le (applyMask_length_le as bs)
      | succ c =>
        have hc' : c < bs.length := by simpa using hc
        have hm' : bs.getD c false = false := by simpa using hm
        cases b with
        | true =>
          have hstep : applyMask (a :: as) (true :: bs)
              = a :: applyMask as bs := by
            simp [applyMask]
          rw [hstep, List.length_cons, List.length_cons]
          exact Nat.succ_lt_succ (ih bs hlen c hc' hm')
        | false =>
          have hstep : applyMask (a :: as) (false :: bs)
              = applyMask as bs := by
            simp [applyMask]
          rw [hstep, List.length_cons]
          exact Nat.lt_succ_of_le (applyMask_length_le as bs)

/-- C6: the candidate list returned by `filter_words` is never longer
than the input list; and when the observed pattern is one the tensor
row actually assigns to some current candidate (in particular to the
true secret) and the row's feedback distribution has positive entropy,
the returned candidate list is strictly shorter. -/
theorem filter_words_shrink :
    (∀ (tensor : List (List Pattern)) (possible : List Word) (gi : ℕ)
        (result : Pattern),
      ((filter_words tensor possible gi result).1).length ≤ possible.length)
    ∧ ∀ (tensor : List (List Pattern)) (possible : List Word) (gi : ℕ)
        (result : Pattern),
        gi < tensor.length →
        possible.length = (tensor.getD gi []).length →
        (∃ c, c < (tensor.getD gi []).length ∧
          (tensor.getD gi []).getD c [] = result) →
        0 < rowEntropy ((tensor.getD gi []).map encode3) →
        ((filter_words tensor possible gi result).1).length
          < possible.length := by
  constructor
  · intro tensor possible gi result
    exact applyMask_length_le possible _
  · intro tensor possible gi result hgi hlen _ hent
    obtain ⟨x, hx, y, hy, hxy⟩ := exists_ne_of_entropy_pos _ hent
    simp only [List.mem_map] at hx hy
    obtain ⟨p1, hp1, rfl⟩ := hx
    obtain ⟨p2, hp2, rfl⟩ := hy
    have hp12 : p1 ≠ p2 := fun h => hxy (by rw [h])
    have hone : ∃ p ∈ tensor.getD gi [], p ≠ result := by
      by_cases h1 : p1 = result
      · exact ⟨p2, hp2, fun h2 => hp12 (h1.trans h2.symm)⟩
      · exact ⟨p1, hp1, h1⟩
    obtain ⟨p, hpmem, hpne⟩ := hone
    obtain ⟨k, hk, rfl⟩ := List.mem_iff_getElem.mp hpmem
    show (applyMask possible ((tensor.getD gi []).map
      (fun q => decide (q = result)))).length < possible.length
    apply applyMask_length_lt possible _ (by simpa using hlen) k
      (by simpa using hk)
    rw [getD_map_lt (fun q => decide (q = result)) _ k hk [] false]
    rw [List.getD_eq_getElem _ _ hk]
    exact decide_eq_false hpne

/-- C6 witness: a concrete call where the entropy is positive and the
candidate list strictly shrinks. -/
theorem filter_words_shrink_witness :
    ((filter_words [[[2, 2, 2, 2, 2], [0, 1, 0, 2, 0]]]
        ["hydro".toList, "boxed".toList] 0 [2, 2, 2, 2, 2]).1).length < 2 :=
  filter_words_shrink.2 [[[2, 2, 2, 2, 2], [0, 1, 0, 2, 0]]]
    ["hydro".toList, "boxed".toList] 0 [2, 2, 2, 2, 2]
    (by decide) (by decide) ⟨0, by decide, by decide⟩
    (rowEntropy_pos _ (encode3 [2, 2, 2, 2, 2]) (encode3 [0, 1, 0, 2, 0])
      (by decide) (by decide) (by decide))

/-- Modelled from the spec (§3, §6): the external `wordle.WordleGame`
collaborator (not part of this repository) holds the session's secret
word and a monotonically increasing guess counter. -/
structure WordleGame where
  secret : Word
  count : ℕ
deriving DecidableEq

/-- Modelled from the spec (§6): `start_game(word, display)` initializes
the session state; if a secret is supplied it is used, otherwise the
collaborator keeps its own choice.  The counter starts at zero.  The
display flag only affects terminal output and is omitted. -/
def start_game (game : WordleGame) (word : Option Word) : WordleGame :=
  ⟨word.getD game.secret, 0⟩

/-- Modelled from the spec (§6): `make_guess(guess)` evaluates the guess
against the session's secret with the feedback evaluator, increments the
counter by exactly one, and returns the feedback pattern with the
cumulative guess count. -/
def make_guess (game : WordleGame) (guess : Word) :
    (Pattern × ℕ) × WordleGame :=
  ((get_guess_result game.secret guess, game.count + 1),
    ⟨game.secret, game.count + 1⟩)

/-- Outcome of a strategy-runner call: a returned guess count, the
Python `UnboundLocalError` raised when `num_games` is read before any
loop iteration assigned it, or exhaustion of the supplied
random-draw/fuel budget before the loop condition failed. -/
inductive RunResult where
  | ok (n : ℕ)
  | unboundLocal
  | outOfFuel
deriving DecidableEq

/-- `all_guess_results.shape[1]`: the length of the candidate axis. -/
def shape1 (t : List (List Pattern)) : ℕ := (t.headD []).length

/-- The `while` loop of `play_game_naive`.  `draws` pre-records the
values of `np.random.randint(len(allowed_words))` consumed one per
iteration (each reduced modulo the list length); `num` is the state of
the local `num_games`, `none` while unassigned.  Returns the result
together with the final game, tensor and candidate list. -/
def naive_loop (allowed : List Word) :
    List ℕ → WordleGame → List (List Pattern) → List Word → Option ℕ →
      RunResult × WordleGame × List (List Pattern) × List Word
  | draws, game, t, possible, num =>
    if 1 < shape1 t then
      match draws with
      | [] => (.outOfFuel, game, t, possible)
      | d :: ds =>
        let guess_idx := d % allowed.length
        let res := make_guess game (allowed.getD guess_idx [])
        let fil := filter_words t possible guess_idx res.1.1
        naive_loop allowed ds res.2 fil.2 fil.1 (some res.1.2)
    else
      ((match num with
        | some n => .ok n
        | none => .unboundLocal), game, t, possible)

/-- `play_game_naive`: start the session, then guess uniformly at random
until at most one candidate remains, returning `num_games`. -/
def play_game_naive (game : WordleGame)
    (all_guess_results : List (List Pattern))
    (possible_words allowed_words : List Word) (word : Option Word)
    (draws : List ℕ) :
    RunResult × WordleGame × List (List Pattern) × List Word :=
  naive_loop allowed_words draws (start_game game word) all_guess_results
    possible_words none

/-- The `while` loop of `play_game_entropy`, with a fuel bound on the
number of iterations; on exit the code returns `num_games + 1`. -/
noncomputable def entropy_loop (allowed : List Word) :
    ℕ → WordleGame → List (List Pattern) → List Word → Option ℕ →
      RunResult × WordleGame × List (List Pattern) × List Word
  | fuel, game, t, possible, num =>
    if 1 < shape1 t then
      match fuel with
      | 0 => (.outOfFuel, game, t, possible)
      | fuel' + 1 =>
        let sel := compute_highest_entropy t allowed
        let res := make_guess game (allowed.getD sel.2 [])
        let fil := filter_words t possible sel.2 res.1.1
        entropy_loop allowed fuel' res.2 fil.2 fil.1 (some res.1.2)
    else
      ((match num with
        | some n => .ok (n + 1)
        | none => .unboundLocal), game, t, possible)

/-- `play_game_entropy`: start the session, then repeatedly submit the
highest-entropy guess until at most one candidate remains, returning
`num_games + 1`. -/
noncomputable def play_game_entropy (game : WordleGame)
    (all_guess_results : List (List Pattern))
    (possible_words allowed_words : List Word) (word : Option Word)
    (fuel : ℕ) :
    RunResult × WordleGame × List (List Pattern) × List Word :=
  entropy_loop allowed_words fuel (start_game game word) all_guess_results
    possible_words none

lemma naive_loop_ok_count (allowed : List Word) (draws : List ℕ) :
    ∀ (game : WordleGame) (t : List (List Pattern)) (possible : List Word)
      (num : Option ℕ),
      (num = none ∨ num = some game.count) →
      ∀ (n : ℕ) (g' : WordleGame) (t' : List (List Pattern))
        (p' : List Word),
        naive_loop allowed draws game t possible num = (.ok n, g', t', p') →
        n = g'.count := by
  induction draws with
  | nil =>
    intro game t possible num hnum n g' t' p' heq
    simp only [naive_loop] at heq
    by_cases hsh : 1 < shape1 t
    · rw [if_pos hsh] at heq
      exact RunResult.noConfusion (congrArg Prod.fst heq)
    · rw [if_neg hsh] at heq
      rcases hnum with h | h
      · subst h
        exact RunResult.noConfusion (congrArg Prod.fst heq)
      · subst h
        have h1 := congrArg Prod.fst heq
        have h2 := congrArg (fun x => x.2.1) heq
        simp only [RunResult.ok.injEq] at h1
        simp only at h2
        rw [← h1, ← h2]
  | cons d ds ih =>
    intro game t possible num hnum n g' t' p' heq
    simp only [naive_loop] at heq
    by_cases hsh : 1 < shape1 t
    · rw [if_pos hsh] at heq
      exact ih _ _ _ _ (Or.inr rfl) n g' t' p' heq
    · rw [if_neg hsh] at heq
      rcases hnum with h | h
      · subst h
        exact RunResult.noConfusion (congrArg Prod.fst heq)
      · subst h
        have h1 := congrArg Prod.fst heq
        have h2 := congrArg (fun x => x.2.1) heq
        simp only [RunResult.ok.injEq] at h1
        simp only at h2
        rw [← h1, ← h2]

lemma entropy_loop_ok_count (allowed : List Word) (fuel : ℕ) :
    ∀ (game : WordleGame) (t : List (List Pattern)) (possible : List Word)
      (num : Option ℕ),
      (num = none ∨ num = some game.count) →
      ∀ (m : ℕ) (g' : WordleGame) (t' : List (List Pattern))
        (p' : List Word),
        entropy_loop allowed fuel game t possible num = (.ok m, g', t', p') →
        m = g'.count + 1 := by
  induction fuel with
  | zero =>
    intro game t possible num hnum m g' t' p' heq
    simp only [entropy_loop] at heq
    by_cases hsh : 1 < shape1 t
    · rw [if_pos hsh] at heq
      exact RunResult.noConfusion (congrArg Prod.fst heq)
    · rw [if_neg hsh] at heq
      rcases hnum with h | h
      · subst h
        exact RunResult.noConfusion (congrArg Prod.fst heq)
      · subst h
        have h1 := congrArg Prod.fst heq
        have h2 := congrArg (fun x => x.2.1) heq
        simp only [RunResult.ok.injEq] at h1
        simp only at h2
        rw [← h1, ← h2]
  | succ fuel ih =>
    intro game t possible num hnum m g' t' p' heq
    simp only [entropy_loop] at heq
    by_cases hsh : 1 < shape1 t
    · rw [if_pos hsh] at heq
      exact ih _ _ _ _ (Or.inr rfl) m g' t' p' heq
    · rw [if_neg hsh] at heq
      rcases hnum with h | h
      · subst h
        exact RunResult.noConfusion (congrArg Prod.fst heq)
      · subst h
        have h1 := congrArg Prod.fst heq
        have h2 := congrArg (fun x => x.2.1) heq
        simp only [RunResult.ok.injEq] at h1
        simp only at h2
        rw [← h1, ← h2]

/-- C5: when the guess loop terminates with exactly one candidate left,
the naive runner returns exactly the cumulative count the game session
reported for the last submitted guess (the final session counter), and
the entropy runner returns that count plus one: the extra confirming
guess is counted but never submitted, so the session counter itself is
one lower. -/
theorem play_game_return_counts :
    (∀ (game : WordleGame) (t : List (List Pattern))
        (possible allowed : List Word) (word : Option Word)
        (draws : List ℕ) (n : ℕ) (g' : WordleGame)
        (t' : List (List Pattern)) (p' : List Word),
      play_game_naive game t possible allowed word draws
        = (.ok n, g', t', p') →
      shape1 t' = 1 →
      n = g'.count)
    ∧ ∀ (game : WordleGame) (t : List (List Pattern))
        (possible allowed : List Word) (word : Option Word) (fuel : ℕ)
        (m : ℕ) (g' : WordleGame) (t' : List (List Pattern))
        (p' : List Word),
      play_game_entropy game t possible allowed word fuel
        = (.ok m, g', t', p') →
      shape1 t' = 1 →
      m = g'.count + 1 := by
  constructor
  · intro game t possible allowed word draws n g' t' p' heq _
    exact naive_loop_ok_count allowed draws _ t possible none
      (Or.inl rfl) n g' t' p' heq
  · intro game t possible allowed word fuel m g' t' p' heq _
    exact entropy_loop_ok_count allowed fuel _ t possible none
      (Or.inl rfl) m g' t' p' heq

lemma naive_loop_exit (allowed : List Word) (draws : List ℕ)
    (game : WordleGame) (t : List (List Pattern)) (possible : List Word)
    (num : Option ℕ) (h : ¬1 < shape1 t) :
    naive_loop allowed draws game t possible num
      = ((match num with
          | some n => RunResult.ok n
          | none => RunResult.unboundLocal), game, t, possible) := by
  rw [naive_loop.eq_def]
  exact if_neg h

lemma entropy_loop_exit (allowed : List Word) (fuel : ℕ)
    (game : WordleGame) (t : List (List Pattern)) (possible : List Word)
    (num : Option ℕ) (h : ¬1 < shape1 t) :
    entropy_loop allowed fuel game t possible num
      = ((match num with
          | some n => RunResult.ok (n + 1)
          | none => RunResult.unboundLocal), game, t, possible) := by
  rw [entropy_loop.eq_def]
  exact if_neg h

lemma entropy_loop_step (allowed : List Word) (fuel : ℕ)
    (game : WordleGame) (t : List (List Pattern)) (possible : List Word)
    (num : Option ℕ) (h : 1 < shape1 t) :
    entropy_loop allowed (fuel + 1) game t possible num
      = entropy_loop allowed fuel
          (make_guess game
            (allowed.getD (compute_highest_entropy t allowed).2 [])).2
          (filter_words t possible (compute_highest_entropy t allowed).2
            (make_guess game
              (allowed.getD (compute_highest_entropy t allowed).2 [])).1.1).2
          (filter_words t possible (compute_highest_entropy t allowed).2
            (make_guess game
              (allowed.getD (compute_highest_entropy t allowed).2 [])).1.1).1
          (some (make_guess game
            (allowed.getD (compute_highest_entropy t allowed).2 [])).1.2) := by
  rw [entropy_loop.eq_def]
  exact if_pos h

lemma argmaxIdx_singleton (a : ℝ) : argmaxIdx [a] = 0 := by
  simp only [argmaxIdx]
  rw [if_pos]
  intro x hx
  exact absurd hx (List.not_mem_nil x)

lemma compute_highest_entropy_single_row (row : List Pattern)
    (allowed : List Word) :
    compute_highest_entropy [row] allowed = (allowed.getD 0 [], 0) := by
  rw [compute_highest_entropy_eq]
  simp only [List.map_cons, List.map_nil]
  rw [argmaxIdx_singleton]

/-- The fixed secret word used by `compare_algorithms`. -/
def hydro : Word := "hydro".toList

/-- A concrete two-candidate scenario used to exhibit terminating
runs: tensor for guess `hydro` against candidates `hydro`, `boxed`. -/
def exampleTensor : List (List Pattern) :=
  [[[2, 2, 2, 2, 2], [0, 0, 1, 0, 1]]]

def examplePossible : List Word := [hydro, "boxed".toList]

def exampleAllowed : List Word := [hydro]

lemma naive_run_example :
    play_game_naive ⟨[], 0⟩ exampleTensor examplePossible exampleAllowed
        (some hydro) [0]
      = (.ok 1, ⟨hydro, 1⟩, [[[2, 2, 2, 2, 2]]], [hydro]) := by
  decide

lemma entropy_run_example :
    play_game_entropy ⟨[], 0⟩ exampleTensor examplePossible exampleAllowed
        (some hydro) 1
      = (.ok 2, ⟨hydro, 1⟩, [[[2, 2, 2, 2, 2]]], [hydro]) := by
  unfold play_game_entropy
  show entropy_loop exampleAllowed (0 + 1) (start_game ⟨[], 0⟩ (some hydro))
    exampleTensor examplePossible none = _
  rw [entropy_loop_step _ 0 _ _ _ _ (by decide)]
  rw [show exampleTensor = [[[2, 2, 2, 2, 2], [0, 0, 1, 0, 1]]] from rfl,
    compute_highest_entropy_single_row]
  rw [entropy_loop_exit _ 0 _ _ _ _ (by decide)]
  decide

/-- C5 witness. -/
theorem play_game_return_counts_witness :
    (1 : ℕ) = (WordleGame.mk hydro 1).count
      ∧ (2 : ℕ) = (WordleGame.mk hydro 1).count + 1 :=
  ⟨play_game_return_counts.1 ⟨[], 0⟩ exampleTensor examplePossible
      exampleAllowed (some hydro) [0] 1 ⟨hydro, 1⟩ [[[2, 2, 2, 2, 2]]]
      [hydro] naive_run_example (by decide),
    play_game_return_counts.2 ⟨[], 0⟩ exampleTensor examplePossible
      exampleAllowed (some hydro) 1 2 ⟨hydro, 1⟩ [[[2, 2, 2, 2, 2]]]
      [hydro] entropy_run_example (by decide)⟩

/-- C10: if the candidate axis already has length ≤ 1 the loop body
never runs and `num_games` is read unassigned, so both runners fail with
an error instead of returning a count; a count is returned only when the
initial candidate axis length is at least 2. -/
theorem play_game_unbound :
    (∀ (game : WordleGame) (t : List (List Pattern))
        (possible allowed : List Word) (word : Option Word)
        (draws : List ℕ),
      shape1 t ≤ 1 →
      (play_game_naive game t possible allowed word draws).1
        = RunResult.unboundLocal)
    ∧ (∀ (game : WordleGame) (t : List (List Pattern))
        (possible allowed : List Word) (word : Option Word) (fuel : ℕ),
      shape1 t ≤ 1 →
      (play_game_entropy game t possible allowed word fuel).1
        = RunResult.unboundLocal)
    ∧ (∀ (game : WordleGame) (t : List (List Pattern))
        (possible allowed : List Word) (word : Option Word)
        (draws : List ℕ) (n : ℕ),
      (play_game_naive game t possible allowed word draws).1
        = RunResult.ok n →
      2 ≤ shape1 t)
    ∧ (∀ (game : WordleGame) (t : List (List Pattern))
        (possible allowed : List Word) (word : Option Word) (fuel : ℕ)
        (m : ℕ),
      (play_game_entropy game t possible allowed word fuel).1
        = RunResult.ok m →
      2 ≤ shape1 t) := by
  refine ⟨?_, ?_, ?_, ?_⟩
  · intro game t possible allowed word draws h
    unfold play_game_naive
    rw [naive_loop_exit _ _ _ _ _ _ (by omega)]
  · intro game t possible allowed word fuel h
    unfold play_game_entropy
    rw [entropy_loop_exit _ _ _ _ _ _ (by omega)]
  · intro game t possible allowed word draws n heq
    by_contra hc
    push_neg at hc
    unfold play_game_naive at heq
    rw [naive_loop_exit _ _ _ _ _ _ (by omega)] at heq
    simp at heq
  · intro game t possible allowed word fuel m heq
    by_contra hc
    push_neg at hc
    unfold play_game_entropy at heq
    rw [entropy_loop_exit _ _ _ _ _ _ (by omega)] at heq
    simp at heq

/-- C10 witness: a tensor whose candidate axis has length exactly 1. -/
theorem play_game_unbound_witness :
    (play_game_naive ⟨[], 0⟩ [[[2, 2, 2, 2, 2]]] [hydro] [hydro]
        (some hydro) [0]).1 = RunResult.unboundLocal
      ∧ (play_game_entropy ⟨[], 0⟩ [[[2, 2, 2, 2, 2]]] [hydro] [hydro]
        (some hydro) 1).1 = RunResult.unboundLocal :=
  ⟨play_game_unbound.1 ⟨[], 0⟩ [[[2, 2, 2, 2, 2]]] [hydro] [hydro]
      (some hydro) [0] (by decide),
    play_game_unbound.2.1 ⟨[], 0⟩ [[[2, 2, 2, 2, 2]]] [hydro] [hydro]
      (some hydro) 1 (by decide)⟩

/-- Did the strategy-runner call return a guess count? -/
def RunResult.isOk : RunResult → Bool
  | .ok _ => true
  | _ => false

/-- The guess count carried by an `ok` result, as a rational. -/
def okCount : RunResult → ℚ
  | .ok k => (k : ℚ)
  | _ => 0

/-- `compare_algorithms(all_guess_results, possible_words,
allowed_words, n)`: play `n` games with each strategy against the fixed
secret `'hydro'`, each on a freshly constructed game session, and return
the two mean guess counts `sum/n`.  The pre-drawn random indices for the
naive games and the entropy fuel are explicit inputs; if any run fails
to return a count the comparison is undefined (`none`). -/
noncomputable def compare_algorithms (all_guess_results : List (List Pattern))
    (possible_words allowed_words : List Word) (n : ℕ)
    (drawss : List (List ℕ)) (fuel : ℕ) : Option (ℚ × ℚ) :=
  let number_naive_guesses := (List.range n).map (fun i =>
    (play_game_naive ⟨[], 0⟩ all_guess_results possible_words allowed_words
      (some hydro) (drawss.getD i [])).1)
  let number_entropy_guesses := (List.range n).map (fun _ =>
    (play_game_entropy ⟨[], 0⟩ all_guess_results possible_words allowed_words
      (some hydro) fuel).1)
  if number_naive_guesses.all RunResult.isOk
      ∧ number_entropy_guesses.all RunResult.isOk then
    some (((number_naive_guesses.map okCount).sum) / n,
      ((number_entropy_guesses.map okCount).sum) / n)
  else
    none

/-- C9: when every one of the `n ≥ 1` games returns a count,
`compare_algorithms` runs `n` games per strategy, each on a fresh
session with the fixed secret, and returns exactly
(sum of naive counts / n, sum of entropy counts / n). -/
theorem compare_algorithms_spec (t : List (List Pattern))
    (possible allowed : List Word) (n : ℕ) (drawss : List (List ℕ))
    (fuel : ℕ) (hn : 1 ≤ n) (naiveCount : ℕ → ℕ) (e : ℕ)
    (hok1 : ∀ i, i < n →
      (play_game_naive ⟨[], 0⟩ t possible allowed (some hydro)
        (drawss.getD i [])).1 = RunResult.ok (naiveCount i))
    (hok2 : (play_game_entropy ⟨[], 0⟩ t possible allowed (some hydro)
        fuel).1 = RunResult.ok e) :
    compare_algorithms t possible allowed n drawss fuel
      = some ((((List.range n).map (fun i => (naiveCount i : ℚ))).sum) / n,
        (((List.range n).map (fun _ => (e : ℚ))).sum) / n) := by
  simp only [compare_algorithms]
  rw [if_pos]
  · have hmap1 : (((List.range n).map (fun i =>
        (play_game_naive ⟨[], 0⟩ t possible allowed (some hydro)
          (drawss.getD i [])).1)).map okCount)
        = (List.range n).map (fun i => (naiveCount i : ℚ)) := by
      rw [List.map_map]
      apply List.map_congr_left
      intro i hi
      show okCount (play_game_naive ⟨[], 0⟩ t possible allowed (some hydro)
        (drawss.getD i [])).1 = (naiveCount i : ℚ)
      rw [hok1 i (List.mem_range.mp hi)]
      rfl
    have hmap2 : (((List.range n).map (fun _ =>
        (play_game_entropy ⟨[], 0⟩ t possible allowed (some hydro)
          fuel).1)).map okCount)
        = (List.range n).map (fun _ => (e : ℚ)) := by
      rw [List.map_map]
      apply List.map_congr_left
      intro i _
      show okCount (play_game_entropy ⟨[], 0⟩ t possible allowed (some hydro)
        fuel).1 = (e : ℚ)
      rw [hok2]
      rfl
    rw [hmap1, hmap2]
  · constructor
    · rw [List.all_eq_true]
      intro r hr
      simp only [List.mem_map, List.mem_range] at hr
      obtain ⟨i, hi, rfl⟩ := hr
      rw [hok1 i hi]
      rfl
    · rw [List.all_eq_true]
      intro r hr
      simp only [List.mem_map, List.mem_range] at hr
      obtain ⟨i, _, rfl⟩ := hr
      rw [hok2]
      rfl

/-- C9 witness: one trial on the concrete scenario; the naive game
takes 1 guess and the entropy game reports 2. -/
theorem compare_algorithms_spec_witness :
    compare_algorithms exampleTensor examplePossible exampleAllowed 1
        [[0]] 1
      = some ((((List.range 1).map (fun _ => ((1 : ℕ) : ℚ))).sum) / 1,
        (((List.range 1).map (fun _ => ((2 : ℕ) : ℚ))).sum) / 1) :=
  compare_algorithms_spec exampleTensor examplePossible exampleAllowed 1
    [[0]] 1 (by decide) (fun _ => 1) 2
    (fun i hi => by
      have h0 : i = 0 := by omega
      subst h0
      exact congrArg Prod.fst naive_run_example)
    (congrArg Prod.fst entropy_run_example)

end Wordle
